import Mathlib

/-!
Verification of the chord-progression MIDI generation engine of the
Astro-Musical-Lab repository.

The definitions below are shallow embeddings of the TypeScript source:

* `OutputType`, `outputTypeLabels`, `getNotesForOutputType` come from
  `src/components/ChordProgressionForm.tsx`, `src/hooks/useChordPlayback.ts`
  and `src/components/ChordProgressionGenerator.tsx`;
* `validateProgression` and its normalization passes come from
  `src/components/ChordProgressionGenerator.tsx`;
* the event gathering / sorting / delta encoding come from `exportMidi` in
  `src/components/DrumPatternSection.tsx`;
* parts of the engine that live in `src/lib/chords/MidiGenerator.ts` and
  `src/lib/chords/ValidationUtils.ts` are not part of the available sources;
  those definitions are modelled from the specification and say so in their
  doc comments.

JavaScript numbers that hold MIDI pitches are modelled as `Int`, ticks as
`Nat`; JavaScript strings are modelled as `String` / `List Char`.
-/

/-- Output type of the generator.  The record `outputTypeLabels` in
`ChordProgressionForm.tsx` is total over this type and has five entries, so
the enum has exactly these five values. -/
inductive OutputType where
  | chordsOnly
  | chordsAndBass
  | bassOnly
  | bassAndFifth
  | notesOnly
deriving DecidableEq, Repr

/-- UI labels of the output types, from `ChordProgressionForm.tsx`
(`outputTypeLabels`). -/
def outputTypeLabels : OutputType → String
  | .chordsOnly => "Chords Only"
  | .chordsAndBass => "Chords + Bass"
  | .bassOnly => "Bass Only"
  | .bassAndFifth => "Bass + Fifth (Power Chord)"
  | .notesOnly => "Note Grid (Custom)"

/-- Per-entry resolved chord state (`ChordGenerationData` of
`MidiGenerator.ts`, as consumed by `getNotesForOutputType`).
`calculatedBassNote` is `Option Int` because the source guards it with
`typeof chord.calculatedBassNote === 'number'`. -/
structure ChordGenerationData where
  symbol : String
  isValid : Bool
  startTimeTicks : Nat
  durationTicks : Nat
  pitchClassSet : List Nat
  adjustedVoicing : List Int
  calculatedBassNote : Option Int
deriving DecidableEq, Repr

/-- Note selection per output type, translated from `getNotesForOutputType`
in `useChordPlayback.ts` (identical copy in
`ChordProgressionGenerator.tsx`).  The `notesOnly` case is the `default`
branch of the `switch`, which returns the empty list. -/
def getNotesForOutputType (chord : ChordGenerationData) (outputType : OutputType) :
    List Int :=
  if chord.isValid then
    match outputType with
    | .chordsOnly => chord.adjustedVoicing
    | .chordsAndBass =>
      match chord.calculatedBassNote with
      | some b =>
        if chord.adjustedVoicing.contains b then chord.adjustedVoicing
        else chord.adjustedVoicing ++ [b]
      | none => chord.adjustedVoicing
    | .bassOnly =>
      match chord.calculatedBassNote with
      | some b => [b]
      | none => []
    | .bassAndFifth =>
      match chord.calculatedBassNote with
      | some b =>
        if 0 ≤ b + 7 ∧ b + 7 ≤ 127 then [b, b + 7] else [b]
      | none => []
    | .notesOnly => []
  else []

/-- A chord entry whose bass is high enough that the fifth would exceed 127. -/
def highBassChord : ChordGenerationData :=
  { symbol := "C"
    isValid := true
    startTimeTicks := 0
    durationTicks := 512
    pitchClassSet := [0]
    adjustedVoicing := []
    calculatedBassNote := some 125 }

/-- C1 counterexample: with bass note 125 the fifth (132) is out of range and
the source drops it instead of clamping it into 0..127, so `bassAndFifth`
yields a single note, not two. -/
theorem bassAndFifth_high_bass_not_clamped :
    getNotesForOutputType highBassChord OutputType.bassAndFifth = [125] ∧
      getNotesForOutputType highBassChord OutputType.bassAndFifth ≠ [125, 127] ∧
      (getNotesForOutputType highBassChord OutputType.bassAndFifth).length ≠ 2 := by
  refine ⟨rfl, ?_, ?_⟩ <;> decide

/-- C1 amended: for a valid entry with a calculated bass note, `bassAndFifth`
returns the bass plus the pitch 7 semitones above it when that fifth lies in
0..127, and otherwise drops the fifth, returning the bass alone. -/
theorem bassAndFifth_spec (c : ChordGenerationData) (b : Int)
    (hv : c.isValid = true) (hb : c.calculatedBassNote = some b) :
    getNotesForOutputType c OutputType.bassAndFifth =
      if 0 ≤ b + 7 ∧ b + 7 ≤ 127 then [b, b + 7] else [b] := by
  simp [getNotesForOutputType, hv, hb]

/-- Witness for `bassAndFifth_spec` at a concrete in-range chord. -/
theorem bassAndFifth_spec_witness :
    highBassChord.isValid = true ∧
      highBassChord.calculatedBassNote = some 125 ∧
      getNotesForOutputType highBassChord OutputType.bassAndFifth =
        if 0 ≤ (125 : Int) + 7 ∧ (125 : Int) + 7 ≤ 127 then [125, 125 + 7] else [125] :=
  ⟨rfl, rfl, bassAndFifth_spec highBassChord 125 rfl rfl⟩

/-- C6 counterexample: the output-type enum does not take exactly the four
values `chordsOnly`, `chordsAndBass`, `bassOnly`, `bassAndFifth` — the value
`notesOnly` is a fifth member (it is a key of `outputTypeLabels`). -/
theorem outputType_not_four_values :
    ¬ (∀ ot : OutputType,
        ot = OutputType.chordsOnly ∨ ot = OutputType.chordsAndBass ∨
        ot = OutputType.bassOnly ∨ ot = OutputType.bassAndFifth) := by
  intro h
  rcases h OutputType.notesOnly with h1 | h1 | h1 | h1 <;> cases h1

/-- C6 amended: the output-type enum takes exactly five values — the four
note-selection behaviors plus `notesOnly`, which is handled by the `default`
branch of `getNotesForOutputType` and selects no notes. -/
theorem outputType_five_values :
    (∀ ot : OutputType,
        ot = OutputType.chordsOnly ∨ ot = OutputType.chordsAndBass ∨
        ot = OutputType.bassOnly ∨ ot = OutputType.bassAndFifth ∨
        ot = OutputType.notesOnly) ∧
      (∀ c : ChordGenerationData, getNotesForOutputType c OutputType.notesOnly = []) := by
  constructor
  · intro ot
    cases ot
    · exact Or.inl rfl
    · exact Or.inr (Or.inl rfl)
    · exact Or.inr (Or.inr (Or.inl rfl))
    · exact Or.inr (Or.inr (Or.inr (Or.inl rfl)))
    · exact Or.inr (Or.inr (Or.inr (Or.inr rfl)))
  · intro c
    by_cases h : c.isValid <;> simp [getNotesForOutputType, h]

/-- C9: an invalid entry yields no notes for any output type, and for
`chordsAndBass` the bass is appended only when it is not already in the
adjusted voicing, so as long as the voicing itself does not repeat the bass,
the result never contains the bass note twice. -/
theorem chordsAndBass_no_duplicate_bass (c : ChordGenerationData) :
    (c.isValid = false → ∀ ot : OutputType, getNotesForOutputType c ot = []) ∧
      (∀ b : Int, c.calculatedBassNote = some b →
        c.adjustedVoicing.count b ≤ 1 →
        (getNotesForOutputType c OutputType.chordsAndBass).count b ≤ 1) := by
  constructor
  · intro h ot
    simp [getNotesForOutputType, h]
  · intro b hb hcount
    by_cases hv : c.isValid
    · simp only [getNotesForOutputType, hv, if_true, hb]
      by_cases hmem : b ∈ c.adjustedVoicing
      · simpa [hmem] using hcount
      · simp [hmem, List.count_append, List.count_eq_zero.mpr hmem]
    · simp [getNotesForOutputType, hv]

/-- A valid chord entry used by witnesses. -/
def sampleChord : ChordGenerationData :=
  { symbol := "C"
    isValid := true
    startTimeTicks := 0
    durationTicks := 512
    pitchClassSet := [0, 4, 7]
    adjustedVoicing := [60, 64, 67]
    calculatedBassNote := some 48 }

/-- An invalid chord entry used by witnesses. -/
def invalidChord : ChordGenerationData :=
  { symbol := "Xyz123"
    isValid := false
    startTimeTicks := 0
    durationTicks := 512
    pitchClassSet := []
    adjustedVoicing := [60]
    calculatedBassNote := some 48 }

/-- Witness for `chordsAndBass_no_duplicate_bass` on concrete chords. -/
theorem chordsAndBass_no_duplicate_bass_witness :
    (invalidChord.isValid = false ∧
      getNotesForOutputType invalidChord OutputType.chordsOnly = []) ∧
      (sampleChord.calculatedBassNote = some 48 ∧
        sampleChord.adjustedVoicing.count 48 ≤ 1 ∧
        (getNotesForOutputType sampleChord OutputType.chordsAndBass).count 48 ≤ 1) :=
  ⟨⟨rfl, (chordsAndBass_no_duplicate_bass invalidChord).1 rfl OutputType.chordsOnly⟩,
    ⟨rfl, by decide,
      (chordsAndBass_no_duplicate_bass sampleChord).2 48 rfl (by decide)⟩⟩

/-- Ticks per quarter note, the fixed time resolution shared across the
system (`TPQN` of `MidiGenerator.ts`, used as `128` in
`DrumPatternSection.tsx`). -/
def TPQN : Nat := 128

/-- Ticks per 16th-note step in the drum exporter:
`Math.max(1, Math.round(TPQN / 4))` from `exportMidi`. -/
def ticksPerStep : Nat := max 1 (TPQN / 4)

/-- Kind of a raw MIDI note event (`type: 'on' | 'off'` in `exportMidi`). -/
inductive EvKind where
  | on
  | off
deriving DecidableEq, Repr

/-- An absolute-time note event (`AbsEvent` in `exportMidi` of
`DrumPatternSection.tsx`). -/
structure AbsEvent where
  tick : Nat
  kind : EvKind
  pitch : Nat
  velocity : Nat
deriving DecidableEq, Repr

/-- Default event used with `List.getD`. -/
def devt : AbsEvent := ⟨0, EvKind.off, 0, 0⟩

/-- Tie-break bit of the comparator: `off` sorts before `on`. -/
def kindBit : EvKind → Nat
  | .off => 0
  | .on => 1

/-- Sort key realizing the comparator of `exportMidi`: ascending tick, and at
equal ticks `off` before `on`. -/
def evKey (e : AbsEvent) : Nat :=
  2 * e.tick + kindBit e.kind

/-- The comparator's ordering as a relation. -/
abbrev evLe (a b : AbsEvent) : Prop := evKey a ≤ evKey b

instance : IsTotal AbsEvent evLe := ⟨fun a b => Nat.le_total _ _⟩

instance : IsTrans AbsEvent evLe := ⟨fun _ _ _ => Nat.le_trans⟩

/-- The stable sort of `exportMidi` (`absEvents.sort(...)`; JavaScript's
`Array.prototype.sort` is stable, as is insertion sort, and the comparator is
the total preorder induced by `evKey`). -/
def sortEvents (evts : List AbsEvent) : List AbsEvent :=
  List.insertionSort evLe evts

/-- General MIDI map of the drum instruments (`GM_DRUM_MAP` in
`src/lib/drums/pocketOperations.ts`). -/
def GM_DRUM_MAP : List (String × Nat) :=
  [("BD", 36), ("SN", 38), ("CH", 42), ("OH", 46), ("LT", 45), ("MT", 47),
   ("HT", 50), ("CL", 39), ("SH", 70), ("RS", 37), ("CB", 56), ("CY", 49),
   ("HC", 63), ("AC", 57), ("LC", 64)]

/-- Event gathering of `exportMidi`: for every instrument row and every step
with a positive velocity, push a Note-On at the step's start tick and a
Note-Off one step later.  The grid is the association list of instrument rows
in display order (`visibleInstruments` with `grid[instrument] ?? []`). -/
def gatherEvents (grid : List (String × List Nat)) : List AbsEvent :=
  grid.bind fun row =>
    match GM_DRUM_MAP.lookup row.1 with
    | none => []
    | some note =>
      row.2.enum.bind fun sv =>
        if sv.2 > 0 then
          [⟨sv.1 * ticksPerStep, EvKind.on, note, sv.2⟩,
           ⟨(sv.1 + 1) * ticksPerStep, EvKind.off, note, 0⟩]
        else []

/-- The sorted track events of `exportMidi` for a grid. -/
def drumTrackEvents (grid : List (String × List Nat)) : List AbsEvent :=
  sortEvents (gatherEvents grid)

/-- Delta encoding of `exportMidi`: each event is emitted with
`delta = evt.tick - cursor` and then `cursor = evt.tick`. -/
def emitDeltas : Int → List AbsEvent → List (Int × AbsEvent)
  | _, [] => []
  | cursor, e :: rest => ((e.tick : Int) - cursor, e) :: emitDeltas (e.tick : Int) rest

/-- The delta-encoded event stream of `exportMidi` (cursor starts at 0). -/
def drumDeltaEvents (grid : List (String × List Nat)) : List (Int × AbsEvent) :=
  emitDeltas 0 (drumTrackEvents grid)

theorem getD_eq_get {α : Type _} (l : List α) (d : α) (n : Nat) (h : n < l.length) :
    l.getD n d = l.get ⟨n, h⟩ := by
  induction l generalizing n with
  | nil => cases h
  | cons a t ih =>
    cases n with
    | zero => rfl
    | succ m => exact ih m (Nat.lt_of_succ_lt_succ h)

/-- C2: in the sorted event list produced by the exporter's comparator, two
events at the same tick can never appear as a Note-On followed by a Note-Off:
every Note-Off at a tick precedes every Note-On at that tick. -/
theorem off_before_on_at_shared_tick (evts : List AbsEvent) (i j : Nat)
    (hij : i < j) (hj : j < (sortEvents evts).length)
    (ht : ((sortEvents evts).getD i devt).tick = ((sortEvents evts).getD j devt).tick) :
    ((sortEvents evts).getD i devt).kind = EvKind.off ∨
      ((sortEvents evts).getD j devt).kind = EvKind.on := by
  have hi : i < (sortEvents evts).length := Nat.lt_trans hij hj
  have hsorted : List.Sorted evLe (sortEvents evts) :=
    List.sorted_insertionSort evLe evts
  have hrel : evLe ((sortEvents evts).get ⟨i, hi⟩) ((sortEvents evts).get ⟨j, hj⟩) :=
    hsorted.rel_get_of_lt hij
  rw [getD_eq_get _ _ _ hi, getD_eq_get _ _ _ hj] at ht ⊢
  set a := (sortEvents evts).get ⟨i, hi⟩
  set b := (sortEvents evts).get ⟨j, hj⟩
  unfold evLe evKey at hrel
  cases hak : a.kind <;> cases hbk : b.kind
  · exact Or.inr rfl
  · exfalso
    rw [hak, hbk, ht] at hrel
    simp [kindBit] at hrel
  · exact Or.inl rfl
  · exact Or.inl rfl

/-- Events of two triads, the first (C major, on at tick 0) ending exactly
where the second (A minor) begins at tick 128. -/
def twoChordBoundaryEvents : List AbsEvent :=
  [⟨0, EvKind.on, 60, 110⟩, ⟨0, EvKind.on, 64, 110⟩, ⟨0, EvKind.on, 67, 110⟩,
   ⟨128, EvKind.off, 60, 0⟩, ⟨128, EvKind.off, 64, 0⟩, ⟨128, EvKind.off, 67, 0⟩,
   ⟨128, EvKind.on, 57, 110⟩, ⟨128, EvKind.on, 60, 110⟩, ⟨128, EvKind.on, 64, 110⟩,
   ⟨256, EvKind.off, 57, 0⟩, ⟨256, EvKind.off, 60, 0⟩, ⟨256, EvKind.off, 64, 0⟩]

/-- Witness for `off_before_on_at_shared_tick`: at the tick-128 boundary of
two chords, positions 3 and 8 of the sorted stream share tick 128 and satisfy
the off-before-on disjunction. -/
theorem off_before_on_at_shared_tick_witness :
    3 < 8 ∧ 8 < (sortEvents twoChordBoundaryEvents).length ∧
      ((sortEvents twoChordBoundaryEvents).getD 3 devt).tick =
        ((sortEvents twoChordBoundaryEvents).getD 8 devt).tick ∧
      (((sortEvents twoChordBoundaryEvents).getD 3 devt).kind = EvKind.off ∨
        ((sortEvents twoChordBoundaryEvents).getD 8 devt).kind = EvKind.on) :=
  ⟨by decide, by decide, by decide,
    off_before_on_at_shared_tick twoChordBoundaryEvents 3 8 (by decide) (by decide)
      (by decide)⟩

theorem emitDeltas_sum (l : List AbsEvent) :
    ∀ (cursor : Int) (k : Nat), k < l.length →
      (((emitDeltas cursor l).take (k + 1)).map Prod.fst).sum =
        ((l.getD k devt).tick : Int) - cursor := by
  induction l with
  | nil => intro cursor k h; cases h
  | cons e rest ih =>
    intro cursor k h
    cases k with
    | zero => simp [emitDeltas]
    | succ m =>
      have hm : m < rest.length := Nat.lt_of_succ_lt_succ h
      have := ih (e.tick : Int) m hm
      simp only [emitDeltas, List.take_succ_cons, List.map_cons, List.sum_cons, this]
      simp [List.getD]

/-- C7: in the exporter's delta-encoded stream, the sum of the delta times of
the first `k + 1` events equals the absolute tick of event `k`: the encoder
subtracts a running cursor that is updated to the current event's tick. -/
theorem delta_times_sum_to_absolute_tick (grid : List (String × List Nat)) (k : Nat)
    (hk : k < (drumTrackEvents grid).length) :
    (((drumDeltaEvents grid).take (k + 1)).map Prod.fst).sum =
      (((drumTrackEvents grid).getD k devt).tick : Int) := by
  have := emitDeltas_sum (drumTrackEvents grid) 0 k hk
  simpa [drumDeltaEvents] using this

/-- A concrete two-hit bass-drum grid. -/
def sampleGrid : List (String × List Nat) := [("BD", [110, 110])]

/-- Witness for `delta_times_sum_to_absolute_tick`: on a two-hit bass-drum
grid, the deltas of the first three events sum to the third event's tick. -/
theorem delta_times_sum_to_absolute_tick_witness :
    2 < (drumTrackEvents sampleGrid).length ∧
      (((drumDeltaEvents sampleGrid).take 3).map Prod.fst).sum =
        (((drumTrackEvents sampleGrid).getD 2 devt).tick : Int) :=
  ⟨by decide, delta_times_sum_to_absolute_tick sampleGrid 2 (by decide)⟩

/-- Whitespace test used by the normalization passes (the common JavaScript
whitespace characters occurring in progression input). -/
def isWs (c : Char) : Bool :=
  c == ' ' || c == '\t' || c == '\n' || c == '\r'

/-- The pass `.replace(/,/g, ' ')` of `validateProgression`. -/
def commaPass (l : List Char) : List Char :=
  l.map fun c => if c = ',' then ' ' else c

/-- The pass `.replace(/\|/g, ' ')` of `validateProgression`. -/
def pipePass (l : List Char) : List Char :=
  l.map fun c => if c = '|' then ' ' else c

/-- The arrow-replacement pass of `validateProgression`: every
non-overlapping occurrence of `->`, scanned left to right, becomes one
space. -/
def arrowPass : List Char → List Char
  | [] => []
  | [c] => [c]
  | c :: c2 :: r =>
    if c = '-' ∧ c2 = '>' then ' ' :: arrowPass r
    else c :: arrowPass (c2 :: r)

/-- State of the scan realizing `.replace(/\s*-\s*/g, ' ')`:  `main` is
outside any candidate match, `ws pending` has read the (reversed) whitespace
run `pending` that may become the `\s*` prefix of a match, and `after` is
consuming the greedy `\s*` suffix of a match just replaced. -/
inductive DashMode where
  | main
  | ws (pending : List Char)
  | after

/-- Scanner for `.replace(/\s*-\s*/g, ' ')`.  A match starting at a position
exists exactly when the whitespace run from that position is followed by a
dash, because `\s*` backtracks but none of the skipped characters can be the
required `-`; the match then greedily consumes the whitespace after the
dash, and a dash met while doing so starts a new match. -/
def dashGo : DashMode → List Char → List Char
  | .ws p, [] => p.reverse
  | _, [] => []
  | m, c :: r =>
    match m with
    | .main =>
      if isWs c then dashGo (.ws [c]) r
      else if c = '-' then ' ' :: dashGo .after r
      else c :: dashGo .main r
    | .ws p =>
      if isWs c then dashGo (.ws (c :: p)) r
      else if c = '-' then ' ' :: dashGo .after r
      else p.reverse ++ c :: dashGo .main r
    | .after =>
      if isWs c then dashGo .after r
      else if c = '-' then ' ' :: dashGo .after r
      else c :: dashGo .main r

/-- The pass `.replace(/\s*-\s*/g, ' ')` of `validateProgression`. -/
def dashPass (l : List Char) : List Char :=
  dashGo .main l

/-- Scanner for `.replace(/\s+/g, ' ')`; the flag says whether the scan is
inside a whitespace run that has already emitted its single space. -/
def wsGo : Bool → List Char → List Char
  | _, [] => []
  | inRun, c :: r =>
    if isWs c then
      if inRun then wsGo true r else ' ' :: wsGo true r
    else c :: wsGo false r

/-- The pass `.replace(/\s+/g, ' ')` of `validateProgression`. -/
def wsPass (l : List Char) : List Char :=
  wsGo false l

/-- JavaScript `String.prototype.trim` on a character list. -/
def trimChars (l : List Char) : List Char :=
  ((l.dropWhile isWs).reverse.dropWhile isWs).reverse

/-- The whole separator normalization of `validateProgression`: commas,
pipes, arrows and (whitespace-wrapped) dashes become spaces, whitespace runs
collapse, and the ends are trimmed. -/
def normalizeChars (l : List Char) : List Char :=
  trimChars (wsPass (dashPass (arrowPass (pipePass (commaPass l)))))

/-- The split `normalized.split(/\s+/)` (the normalized string is trimmed,
so no empty fields arise); the first argument accumulates the current token
reversed. -/
def splitWsGo : List Char → List Char → List (List Char)
  | cur, [] => if cur.isEmpty then [] else [cur.reverse]
  | cur, c :: r =>
    if isWs c then
      if cur.isEmpty then splitWsGo [] r else cur.reverse :: splitWsGo [] r
    else splitWsGo (c :: cur) r

/-- Tokenization of the normalized progression. -/
def splitWs (l : List Char) : List (List Char) :=
  splitWsGo [] l

/-- Sign and parsability classification of a JavaScript `parseFloat` result:
`validateProgression` only ever tests `isNaN(x)`, `x > 0` and `x <= 0`. -/
inductive FloatClass where
  | nan
  | pos
  | zero
  | neg
deriving DecidableEq, Repr

/-- Classification of `parseFloat(s)` by sign, translated from the
JavaScript semantics: optional leading whitespace, optional sign, then
either `Infinity` or a decimal mantissa (trailing garbage ignored; an
exponent cannot change the sign, so it is irrelevant to the
classification). -/
def jsFloatClass (l : List Char) : FloatClass :=
  let l1 := l.dropWhile isWs
  let sn : Bool × List Char :=
    match l1 with
    | '-' :: r => (true, r)
    | '+' :: r => (false, r)
    | _ => (false, l1)
  match sn.2 with
  | 'I' :: 'n' :: 'f' :: 'i' :: 'n' :: 'i' :: 't' :: 'y' :: _ =>
    if sn.1 then .neg else .pos
  | l2 =>
    let intPart := l2.takeWhile Char.isDigit
    let fracPart :=
      match l2.dropWhile Char.isDigit with
      | '.' :: f => f.takeWhile Char.isDigit
      | _ => []
    if intPart.isEmpty && fracPart.isEmpty then .nan
    else if (intPart ++ fracPart).all (· == '0') then .zero
    else if sn.1 then .neg else .pos

/-- Modelled from the spec: the chord vocabulary table `CHORD_FORMULAS` of
`MidiGenerator.ts` (not among the available sources), mapping quality tokens
to semitone offsets from the root; the empty quality is the major triad and
`1` is the forced single note, as required by §4.2 of the specification. -/
def CHORD_FORMULAS : List (String × List Nat) :=
  [("", [0, 4, 7]), ("m", [0, 3, 7]), ("dim", [0, 3, 6]), ("aug", [0, 4, 8]),
   ("sus2", [0, 2, 7]), ("sus4", [0, 5, 7]), ("sus", [0, 5, 7]),
   ("6", [0, 4, 7, 9]), ("m6", [0, 3, 7, 9]), ("7", [0, 4, 7, 10]),
   ("maj7", [0, 4, 7, 11]), ("m7", [0, 3, 7, 10]), ("9", [0, 4, 7, 10, 14]),
   ("maj9", [0, 4, 7, 11, 14]), ("m9", [0, 3, 7, 10, 14]), ("1", [0])]

/-- Modelled from the spec: the fixed whitelist `VALID_DURATION_CODES` of
`ValidationUtils.ts` (not among the available sources) of named duration
codes, compared lowercased in the source. -/
def VALID_DURATION_CODES : List String :=
  ["w", "h", "q", "e", "s"]

/-- Parse a root letter with an optional accidental, returning its pitch
class and the remaining characters. -/
def parseRoot : List Char → Option (Nat × List Char)
  | [] => none
  | c :: r =>
    let pc? : Option Nat :=
      if c = 'C' then some 0 else if c = 'D' then some 2
      else if c = 'E' then some 4 else if c = 'F' then some 5
      else if c = 'G' then some 7 else if c = 'A' then some 9
      else if c = 'B' then some 11 else none
    match pc? with
    | none => none
    | some pc =>
      match r with
      | '#' :: r2 => some ((pc + 1) % 12, r2)
      | 'b' :: r2 => some ((pc + 11) % 12, r2)
      | _ => some (pc, r)

/-- Modelled from the spec: the chord-symbol pattern built by
`generateValidChordPattern` of `ValidationUtils.ts` (not among the available
sources): a root `A`–`G` with optional `#`/`b`, a quality that is a key of
the vocabulary table, and an optional slash bass `/Root`. -/
def validChordSymbol (sym : List Char) : Bool :=
  match parseRoot sym with
  | none => false
  | some pr =>
    let quality := pr.2.takeWhile (· ≠ '/')
    let slash := pr.2.dropWhile (· ≠ '/')
    (CHORD_FORMULAS.lookup (String.mk quality)).isSome &&
      match slash with
      | [] => true
      | _ :: bass =>
        match parseRoot bass with
        | some pb => pb.2.isEmpty
        | none => false

/-- The regex `/^[A-G][#b]?1$/i` (`validSingleNotePattern` in
`ChordProgressionGenerator.tsx`). -/
def validSingleNote (sym : List Char) : Bool :=
  match sym with
  | [] => false
  | c :: rest =>
    ('A' ≤ c.toUpper && c.toUpper ≤ 'G') &&
      match rest with
      | ['1'] => true
      | a :: ['1'] => a == '#' || a.toUpper == 'B'
      | _ => false

/-- The regex `/^t\d+$/i` (`isTickCode` test in `validateProgression`). -/
def isTickCode (d : List Char) : Bool :=
  match d with
  | [] => false
  | c :: rest => (c == 't' || c == 'T') && !rest.isEmpty && rest.all Char.isDigit

/-- The test `VALID_DURATION_CODES.includes(durationStr.toLowerCase())`. -/
def isKnownCode (d : List Char) : Bool :=
  VALID_DURATION_CODES.contains (String.mk (d.map Char.toLower))

/-- Error message of the rest branch of `validateProgression`. -/
def restDurationError : String :=
  "Rest \"R\" must include a positive numeric duration (e.g., R:1)."

/-- Error message for an invalid chord symbol in `validateProgression`. -/
def invalidChordError (symbol entry : List Char) : String :=
  "Invalid chord symbol \"" ++ String.mk symbol ++ "\" in \"" ++ String.mk entry ++
    "\". Use formats like C, Dm7, Gsus, or C1."

/-- Error message for an invalid duration in `validateProgression`. -/
def invalidDurationError (dur symbol : List Char) : String :=
  "Invalid duration \"" ++ String.mk dur ++ "\" for chord \"" ++ String.mk symbol ++
    "\". Use bar lengths as numbers (0.5, 1) or ticks (T128)."

/-- The destructuring `const [symbol, durationStr] = entry.split(':')`:
`symbol` is the part before the first colon. -/
def entrySymbol (e : List Char) : List Char :=
  e.takeWhile (· ≠ ':')

/-- The destructuring `const [symbol, durationStr] = entry.split(':')`:
`durationStr` is the part between the first and second colon, absent when
the entry has no colon. -/
def entryDuration (e : List Char) : Option (List Char) :=
  match e.dropWhile (· ≠ ':') with
  | [] => none
  | _ :: r => some (r.takeWhile (· ≠ ':'))

/-- The body of the validation loop of `validateProgression` for one
non-empty entry: the rest branch demands a positive numeric duration, the
chord branch demands a valid symbol and, when a duration is present, a
positive number, a known code, or a tick code. -/
def entryCheck (e : List Char) : Except String (List Char) :=
  let symbol := entrySymbol e
  if symbol.map Char.toUpper == ['R'] then
    match entryDuration e with
    | none => .error restDurationError
    | some d => if jsFloatClass d = .pos then .ok e else .error restDurationError
  else if !(validChordSymbol symbol || validSingleNote symbol) then
    .error (invalidChordError symbol e)
  else
    match entryDuration e with
    | some d =>
      if jsFloatClass d = .pos || isKnownCode d || isTickCode d then
        .ok (symbol ++ ':' :: d)
      else .error (invalidDurationError d symbol)
    | none => .ok symbol

/-- The validation loop of `validateProgression`: empty entries are skipped
(`if (!entry) continue`), the first failing entry aborts the whole loop, and
otherwise the validated pieces are collected in order. -/
def validateEntries : List (List Char) → Except String (List (List Char))
  | [] => .ok []
  | e :: rest =>
    if e.isEmpty then validateEntries rest
    else
      match entryCheck e with
      | .error m => .error m
      | .ok v => (validateEntries rest).map (v :: ·)

/-- The join `validated.join(' ')`. -/
def joinTokens : List (List Char) → List Char
  | [] => []
  | [t] => t
  | t :: ts => t ++ ' ' :: joinTokens ts

/-- `validateProgression` of `ChordProgressionGenerator.tsx` on character
lists: normalize the separators, return the empty string for an empty
normalization, otherwise validate every token and rejoin them. -/
def validateProgressionChars (raw : List Char) : Except String (List Char) :=
  let normalized := normalizeChars raw
  if normalized.isEmpty then .ok []
  else (validateEntries (splitWs normalized)).map joinTokens

/-- `validateProgression` on strings. -/
def validateProgression (raw : String) : Except String String :=
  (validateProgressionChars raw.data).map String.mk

/-- The three failure categories of the validation loop, as a predicate on
one non-empty entry: a rest without a positive numeric duration, a malformed
chord symbol, or a chord duration that is neither a positive number nor a
known code nor a tick code.  Empty entries are skipped by the loop and are
not failures. -/
def badEntry (e : List Char) : Bool :=
  if e.isEmpty then false
  else
    let symbol := entrySymbol e
    if symbol.map Char.toUpper == ['R'] then
      match entryDuration e with
      | none => true
      | some d => !(decide (jsFloatClass d = .pos))
    else if !(validChordSymbol symbol || validSingleNote symbol) then true
    else
      match entryDuration e with
      | some d => !(decide (jsFloatClass d = .pos) || isKnownCode d || isTickCode d)
      | none => false

/-- The error message thrown for a failing entry, by failure category. -/
def entryErrorMsg (e : List Char) : String :=
  let symbol := entrySymbol e
  if symbol.map Char.toUpper == ['R'] then restDurationError
  else if !(validChordSymbol symbol || validSingleNote symbol) then
    invalidChordError symbol e
  else
    match entryDuration e with
    | some d => invalidDurationError d symbol
    | none => ""

theorem entryCheck_error_of_bad (e : List Char) (h : badEntry e = true) :
    entryCheck e = .error (entryErrorMsg e) := by
  unfold badEntry at h
  unfold entryCheck entryErrorMsg
  by_cases he : e.isEmpty
  · simp [he] at h
  · simp only [he, Bool.false_eq_true, if_false] at h
    by_cases hr : (entrySymbol e).map Char.toUpper == ['R']
    · simp only [hr, if_true] at h ⊢
      cases hd : entryDuration e with
      | none => rfl
      | some d =>
        rw [hd] at h
        dsimp only at h ⊢
        have hnp : ¬ jsFloatClass d = .pos := by
          intro hx
          simp [hx] at h
        rw [if_neg hnp]
    · simp only [hr, Bool.false_eq_true, if_false] at h ⊢
      by_cases hv : (validChordSymbol (entrySymbol e) || validSingleNote (entrySymbol e)) = true
      · simp only [hv, Bool.not_true, Bool.false_eq_true, if_false] at h ⊢
        cases hd : entryDuration e with
        | none => rw [hd] at h; simp at h
        | some d =>
          rw [hd] at h
          dsimp only at h ⊢
          have hfalse :
              (decide (jsFloatClass d = FloatClass.pos) || isKnownCode d || isTickCode d) = false := by
            simpa using h
          rw [if_neg (by simp [hfalse])]
      · simp only [hv, Bool.not_false, if_true]

theorem entryCheck_nil_not_ok : (entryCheck ([] : List Char)).isOk = false := by
  rfl

theorem validateEntries_first_error (pre : List (List Char)) (e : List Char)
    (post : List (List Char))
    (hpre : ∀ x ∈ pre, (entryCheck x).isOk = true) (hbad : badEntry e = true) :
    validateEntries (pre ++ e :: post) = .error (entryErrorMsg e) := by
  induction pre with
  | nil =>
    have hne : e.isEmpty = false := by
      cases hx : e.isEmpty
      · rfl
      · unfold badEntry at hbad
        rw [hx] at hbad
        simp at hbad
    simp only [List.nil_append, validateEntries, hne, Bool.false_eq_true, if_false]
    rw [entryCheck_error_of_bad e hbad]
  | cons x pre ih =>
    have hx := hpre x (List.mem_cons_self x pre)
    have hxe : x.isEmpty = false := by
      cases hxx : x.isEmpty
      · rfl
      · have : x = [] := by
          cases x
          · rfl
          · simp [List.isEmpty] at hxx
        rw [this] at hx
        rw [entryCheck_nil_not_ok] at hx
        cases hx
    have ihx := ih (fun y hy => hpre y (List.mem_cons_of_mem x hy))
    simp only [List.cons_append, validateEntries, hxe, Bool.false_eq_true, if_false]
    cases hc : entryCheck x with
    | error m =>
      rw [hc] at hx
      simp [Except.isOk, Except.toBool] at hx
    | ok v =>
      dsimp only
      rw [List.append_eq, ihx]
      rfl

/-- C4: any progression whose token list contains a failing entry — a rest
without a positive numeric duration, a malformed chord symbol, or an invalid
duration suffix — makes `validateProgression` fail as a whole with the
single error message of the first such token, and no validated result is
produced. -/
theorem validateProgression_throws_on_bad_token (raw : String)
    (pre post : List (List Char)) (e : List Char)
    (hsplit : splitWs (normalizeChars raw.data) = pre ++ e :: post)
    (hpre : ∀ x ∈ pre, (entryCheck x).isOk = true)
    (hbad : badEntry e = true) :
    validateProgression raw = .error (entryErrorMsg e) := by
  unfold validateProgression validateProgressionChars
  by_cases hn : (normalizeChars raw.data).isEmpty
  · exfalso
    have hnil : normalizeChars raw.data = [] := by
      cases hc : normalizeChars raw.data
      · rfl
      · rw [hc] at hn; simp [List.isEmpty] at hn
    rw [hnil] at hsplit
    have : splitWs ([] : List Char) = [] := rfl
    rw [this] at hsplit
    cases pre <;> simp at hsplit
  · simp only [hn, Bool.false_eq_true, if_false]
    rw [hsplit, validateEntries_first_error pre e post hpre hbad]
    rfl

/-- Witness for `validateProgression_throws_on_bad_token`: the progression
`"C Xx"` has the malformed symbol `Xx` as its second token and fails with
the message naming it. -/
theorem validateProgression_throws_on_bad_token_witness :
    splitWs (normalizeChars "C Xx".data) = [['C']] ++ ['X', 'x'] :: [] ∧
      (∀ x ∈ [['C']], (entryCheck x).isOk = true) ∧
      badEntry ['X', 'x'] = true ∧
      validateProgression "C Xx" = .error (entryErrorMsg ['X', 'x']) :=
  ⟨by decide, by decide, by decide,
    validateProgression_throws_on_bad_token "C Xx" [['C']] [] ['X', 'x']
      (by decide) (by decide) (by decide)⟩

theorem takeWhile_ne_colon_eq_self (d : List Char) (h : ':' ∉ d) :
    d.takeWhile (· ≠ ':') = d := by
  induction d with
  | nil => rfl
  | cons c r ih =>
    have hc : c ≠ ':' := fun hx => h (hx ▸ List.mem_cons_self c r)
    have hr : ':' ∉ r := fun hx => h (List.mem_cons_of_mem c hx)
    simp only [List.takeWhile_cons]
    rw [if_pos (by simp [hc]), ih hr]

/-- C5 counterexample: the rest token `R:T128` does not parse; the rest
branch of `validateProgression` accepts only positive numeric durations, so
the whole validation throws the rest-duration error. -/
theorem rest_tick_duration_rejected :
    validateProgression "R:T128" = .error restDurationError ∧
      (validateProgression "R:T128").isOk = false := by
  constructor <;> rfl

/-- C5 amended: a rest token `R:<duration>` is accepted exactly when
`parseFloat` classifies the duration as a positive number; named duration
codes and `T`-prefixed tick counts (such as `T128`) are rejected with the
rest-duration error, unlike for chord tokens. -/
theorem rest_duration_numeric_only (d : List Char) (h : ':' ∉ d) :
    entryCheck ('R' :: ':' :: d) =
      if jsFloatClass d = .pos then .ok ('R' :: ':' :: d)
      else .error restDurationError := by
  have hsym : entrySymbol ('R' :: ':' :: d) = ['R'] := rfl
  have hdur : entryDuration ('R' :: ':' :: d) = some d := by
    unfold entryDuration
    have hstep : ('R' :: ':' :: d).dropWhile (· ≠ ':') = ':' :: d := rfl
    rw [hstep]
    dsimp only
    rw [takeWhile_ne_colon_eq_self d h]
  unfold entryCheck
  rw [hsym, hdur]
  rfl

/-- Witness for `rest_duration_numeric_only` at the duration `T128` of the
claim: the entry `R:T128` is rejected. -/
theorem rest_duration_numeric_only_witness :
    ':' ∉ "T128".data ∧
      entryCheck ('R' :: ':' :: "T128".data) =
        if jsFloatClass "T128".data = .pos then .ok ('R' :: ':' :: "T128".data)
        else .error restDurationError :=
  ⟨by decide, rest_duration_numeric_only "T128".data (by decide)⟩

/-- Recognizer for strings that consist only of separator tokens: whitespace,
commas, pipes, arrows `->` and dashes; a `>` is admitted only as the second
character of an arrow. -/
def sepTok : List Char → Bool
  | [] => true
  | [c] => isWs c || c = ',' || c = '|' || c = '-'
  | c :: c2 :: r =>
    if c = '-' then
      if c2 = '>' then sepTok r else sepTok (c2 :: r)
    else (isWs c || c = ',' || c = '|') && sepTok (c2 :: r)

/-- Characters that may remain after the comma, pipe and arrow passes of a
separator-only string: whitespace and dashes. -/
def wsDash (c : Char) : Bool := isWs c || c == '-'


/-- The composed character action of the comma and pipe passes. -/
def gChar (c : Char) : Char :=
  if (if c = ',' then ' ' else c) = '|' then ' ' else if c = ',' then ' ' else c

theorem pipePass_commaPass_map (l : List Char) :
    pipePass (commaPass l) = l.map gChar := by
  unfold pipePass commaPass
  rw [List.map_map]
  rfl

theorem gChar_ne_gt (c : Char) (h : ¬ c = '>') : ¬ gChar c = '>' := by
  by_cases h1 : c = ','
  · subst h1; decide
  · by_cases h2 : c = '|'
    · subst h2; decide
    · simpa [gChar, h1, h2] using h

theorem gChar_ne_dash (c : Char) (h : ¬ c = '-') : ¬ gChar c = '-' := by
  by_cases h1 : c = ','
  · subst h1; decide
  · by_cases h2 : c = '|'
    · subst h2; decide
    · simpa [gChar, h1, h2] using h

theorem gChar_ws (c : Char) (h : (isWs c || c = ',' || c = '|') = true) :
    isWs (gChar c) = true := by
  rcases Bool.or_eq_true_iff.mp h with h1 | h1
  · rcases Bool.or_eq_true_iff.mp h1 with h2 | h2
    · have hc1 : ¬ c = ',' := by intro hx; rw [hx] at h2; simp [isWs] at h2
      have hc2 : ¬ c = '|' := by intro hx; rw [hx] at h2; simp [isWs] at h2
      simpa [gChar, hc1, hc2] using h2
    · have hc : c = ',' := of_decide_eq_true h2
      subst hc; decide
  · have hc : c = '|' := of_decide_eq_true h1
    subst hc; decide

theorem gChar_wsDash (c : Char) (h : (isWs c || c = ',' || c = '|' || c = '-') = true) :
    wsDash (gChar c) = true := by
  rcases Bool.or_eq_true_iff.mp h with h1 | h1
  · unfold wsDash
    rw [gChar_ws c h1]
    rfl
  · have hc : c = '-' := of_decide_eq_true h1
    subst hc; decide

theorem sepTok_arrowPass (l : List Char) (h : sepTok l = true) :
    (arrowPass (pipePass (commaPass l))).all wsDash = true := by
  rw [pipePass_commaPass_map]
  induction l using sepTok.induct with
  | case1 => rfl
  | case2 c =>
    have h2 : (isWs c || c = ',' || c = '|' || c = '-') = true := h
    have hmap : List.map gChar [c] = [gChar c] := rfl
    rw [hmap]
    have hone : arrowPass [gChar c] = [gChar c] := rfl
    rw [hone]
    simp only [List.all_cons, List.all_nil, Bool.and_true]
    exact gChar_wsDash c h2
  | case3 r ih =>
    have hsep : sepTok r = true := h
    have hmap : List.map gChar ('-' :: '>' :: r) = '-' :: '>' :: List.map gChar r := rfl
    rw [hmap]
    have hred : arrowPass ('-' :: '>' :: List.map gChar r) =
        ' ' :: arrowPass (List.map gChar r) := rfl
    rw [hred]
    simp only [List.all_cons, ih hsep, Bool.and_true]
    rfl
  | case4 c2 r hne ih =>
    have hred0 : sepTok ('-' :: c2 :: r) =
        if c2 = '>' then sepTok r else sepTok (c2 :: r) := rfl
    rw [hred0, if_neg hne] at h
    have hmap : List.map gChar ('-' :: c2 :: r) =
        '-' :: gChar c2 :: List.map gChar r := rfl
    rw [hmap]
    have hred : arrowPass ('-' :: gChar c2 :: List.map gChar r) =
        if ('-' : Char) = '-' ∧ gChar c2 = '>' then ' ' :: arrowPass (List.map gChar r)
        else '-' :: arrowPass (gChar c2 :: List.map gChar r) := rfl
    rw [hred, if_neg (fun hx => gChar_ne_gt c2 hne hx.2)]
    simp only [List.all_cons]
    have hswap : gChar c2 :: List.map gChar r = List.map gChar (c2 :: r) := rfl
    rw [hswap, ih h]
    rfl
  | case5 c c2 r hne ih =>
    have hred0 : sepTok (c :: c2 :: r) =
        if c = '-' then (if c2 = '>' then sepTok r else sepTok (c2 :: r))
        else (isWs c || c = ',' || c = '|') && sepTok (c2 :: r) := rfl
    rw [hred0, if_neg hne] at h
    have hws : (isWs c || c = ',' || c = '|') = true := (Bool.and_eq_true_iff.mp h).1
    have hsep : sepTok (c2 :: r) = true := (Bool.and_eq_true_iff.mp h).2
    have hmap : List.map gChar (c :: c2 :: r) =
        gChar c :: gChar c2 :: List.map gChar r := rfl
    rw [hmap]
    have hred : arrowPass (gChar c :: gChar c2 :: List.map gChar r) =
        if gChar c = '-' ∧ gChar c2 = '>' then ' ' :: arrowPass (List.map gChar r)
        else gChar c :: arrowPass (gChar c2 :: List.map gChar r) := rfl
    rw [hred, if_neg (fun hx => gChar_ne_dash c hne hx.1)]
    simp only [List.all_cons]
    have hswap : gChar c2 :: List.map gChar r = List.map gChar (c2 :: r) := rfl
    rw [hswap, ih hsep]
    unfold wsDash
    rw [gChar_ws c hws]
    rfl

theorem all_cons_split {p : Char → Bool} {c : Char} {r : List Char}
    (h : (c :: r).all p = true) : p c = true ∧ r.all p = true := by
  rw [List.all_cons] at h
  exact Bool.and_eq_true_iff.mp h

theorem dashGo_all_ws (l : List Char) :
    ∀ m : DashMode, l.all wsDash = true →
      (∀ p, m = DashMode.ws p → p.all isWs = true) →
      (dashGo m l).all isWs = true := by
  induction l with
  | nil =>
    intro m _ hp
    cases m with
    | main => rfl
    | after => rfl
    | ws p =>
      have : dashGo (DashMode.ws p) [] = p.reverse := rfl
      rw [this, List.all_reverse]
      exact hp p rfl
  | cons c r ih =>
    intro m hall hp
    have hc : wsDash c = true := (all_cons_split hall).1
    have hr : r.all wsDash = true := (all_cons_split hall).2
    have hcase : isWs c = true ∨ c = '-' := by
      unfold wsDash at hc
      rcases Bool.or_eq_true_iff.mp hc with h1 | h1
      · exact Or.inl h1
      · exact Or.inr (by simpa using h1)
    cases m with
    | main =>
      have hred : dashGo DashMode.main (c :: r) =
          if isWs c then dashGo (DashMode.ws [c]) r
          else if c = '-' then ' ' :: dashGo DashMode.after r
          else c :: dashGo DashMode.main r := rfl
      rw [hred]
      by_cases hws : isWs c
      · rw [if_pos hws]
        exact ih (DashMode.ws [c]) hr
          (fun p hpp => by cases hpp; simpa using hws)
      · rcases hcase with h1 | h1
        · exact absurd h1 (by simpa using hws)
        · rw [if_neg hws, if_pos h1]
          simp only [List.all_cons]
          rw [ih DashMode.after hr (fun p hpp => by cases hpp)]
          rfl
    | ws p =>
      have hpw : p.all isWs = true := hp p rfl
      have hred : dashGo (DashMode.ws p) (c :: r) =
          if isWs c then dashGo (DashMode.ws (c :: p)) r
          else if c = '-' then ' ' :: dashGo DashMode.after r
          else p.reverse ++ c :: dashGo DashMode.main r := rfl
      rw [hred]
      by_cases hws : isWs c
      · rw [if_pos hws]
        exact ih (DashMode.ws (c :: p)) hr
          (fun q hq => by cases hq; simp [hws, hpw])
      · rcases hcase with h1 | h1
        · exact absurd h1 (by simpa using hws)
        · rw [if_neg hws, if_pos h1]
          simp only [List.all_cons]
          rw [ih DashMode.after hr (fun q hq => by cases hq)]
          rfl
    | after =>
      have hred : dashGo DashMode.after (c :: r) =
          if isWs c then dashGo DashMode.after r
          else if c = '-' then ' ' :: dashGo DashMode.after r
          else c :: dashGo DashMode.main r := rfl
      rw [hred]
      by_cases hws : isWs c
      · rw [if_pos hws]
        exact ih DashMode.after hr (fun q hq => by cases hq)
      · rcases hcase with h1 | h1
        · exact absurd h1 (by simpa using hws)
        · rw [if_neg hws, if_pos h1]
          simp only [List.all_cons]
          rw [ih DashMode.after hr (fun q hq => by cases hq)]
          rfl

theorem wsGo_all_ws (l : List Char) :
    ∀ b : Bool, l.all isWs = true → (wsGo b l).all isWs = true := by
  induction l with
  | nil => intro b _; rfl
  | cons c r ih =>
    intro b hall
    have hc : isWs c = true := (all_cons_split hall).1
    have hr : r.all isWs = true := (all_cons_split hall).2
    have hred : wsGo b (c :: r) =
        if isWs c then (if b then wsGo true r else ' ' :: wsGo true r)
        else c :: wsGo false r := rfl
    rw [hred, if_pos hc]
    cases b with
    | true => simpa using ih true hr
    | false =>
      rw [if_neg (by simp)]
      simp only [List.all_cons]
      rw [ih true hr]
      rfl

theorem all_ws_dropWhile_nil (l : List Char) (h : l.all isWs = true) :
    l.dropWhile isWs = [] := by
  induction l with
  | nil => rfl
  | cons c r ih =>
    have hc : isWs c = true := (all_cons_split h).1
    have hr : r.all isWs = true := (all_cons_split h).2
    rw [List.dropWhile_cons_of_pos hc]
    exact ih hr

theorem trimChars_of_all_ws (l : List Char) (h : l.all isWs = true) :
    trimChars l = [] := by
  unfold trimChars
  rw [all_ws_dropWhile_nil l h]
  rfl

/-- A separator-only string normalizes to the empty string. -/
theorem sepTok_normalize (l : List Char) (h : sepTok l = true) :
    normalizeChars l = [] := by
  unfold normalizeChars
  apply trimChars_of_all_ws
  unfold wsPass
  apply wsGo_all_ws
  unfold dashPass
  exact dashGo_all_ws _ DashMode.main (sepTok_arrowPass l h) (fun p hp => by cases hp)

theorem sepTok_dropWhileWs (l : List Char) (h : sepTok l = true) :
    sepTok (l.dropWhile isWs) = true := by
  induction l using sepTok.induct with
  | case1 => rfl
  | case2 c =>
    by_cases hws : isWs c = true
    · rw [List.dropWhile_cons_of_pos hws]
      rfl
    · rw [List.dropWhile_cons_of_neg (by simpa using hws)]
      exact h
  | case3 r ih =>
    rw [List.dropWhile_cons_of_neg (by decide)]
    exact h
  | case4 c2 r hne ih =>
    rw [List.dropWhile_cons_of_neg (by decide)]
    exact h
  | case5 c c2 r hne ih =>
    have hred0 : sepTok (c :: c2 :: r) =
        if c = '-' then (if c2 = '>' then sepTok r else sepTok (c2 :: r))
        else (isWs c || c = ',' || c = '|') && sepTok (c2 :: r) := rfl
    by_cases hws : isWs c = true
    · rw [List.dropWhile_cons_of_pos hws]
      rw [hred0, if_neg hne] at h
      exact ih (Bool.and_eq_true_iff.mp h).2
    · rw [List.dropWhile_cons_of_neg (by simpa using hws)]
      exact h

theorem sepTok_append_ws (w : List Char) (hw : w.all isWs = true) :
    ∀ m : List Char, sepTok (m ++ w) = true → sepTok m = true := by
  intro m
  induction m using sepTok.induct with
  | case1 => intro _; rfl
  | case2 c =>
    intro h
    cases w with
    | nil => simpa using h
    | cons d w2 =>
      by_cases hc : c = '-'
      · subst hc; decide
      · have hred : sepTok (c :: d :: w2) =
            if c = '-' then (if d = '>' then sepTok w2 else sepTok (d :: w2))
            else (isWs c || c = ',' || c = '|') && sepTok (d :: w2) := rfl
        have h2 : sepTok ([c] ++ d :: w2) = sepTok (c :: d :: w2) := rfl
        rw [h2, hred, if_neg hc] at h
        have hsep : (isWs c || c = ',' || c = '|') = true := (Bool.and_eq_true_iff.mp h).1
        have hgoal : sepTok [c] = (isWs c || c = ',' || c = '|' || c = '-') := rfl
        rw [hgoal]
        rcases Bool.or_eq_true_iff.mp hsep with h1 | h1
        · rcases Bool.or_eq_true_iff.mp h1 with h3 | h3 <;> simp [h3]
        · simp [h1]
  | case3 r ih =>
    intro h
    exact ih h
  | case4 c2 r hne ih =>
    intro h
    have hredh : sepTok ('-' :: c2 :: (r ++ w)) =
        if c2 = '>' then sepTok (r ++ w) else sepTok (c2 :: (r ++ w)) := rfl
    have happ : ('-' :: c2 :: r) ++ w = '-' :: c2 :: (r ++ w) := rfl
    rw [happ, hredh, if_neg hne] at h
    have hredg : sepTok ('-' :: c2 :: r) =
        if c2 = '>' then sepTok r else sepTok (c2 :: r) := rfl
    rw [hredg, if_neg hne]
    exact ih h
  | case5 c c2 r hne ih =>
    intro h
    have hredh : sepTok (c :: c2 :: (r ++ w)) =
        if c = '-' then (if c2 = '>' then sepTok (r ++ w) else sepTok (c2 :: (r ++ w)))
        else (isWs c || c = ',' || c = '|') && sepTok (c2 :: (r ++ w)) := rfl
    have happ : (c :: c2 :: r) ++ w = c :: c2 :: (r ++ w) := rfl
    rw [happ, hredh, if_neg hne] at h
    have hredg : sepTok (c :: c2 :: r) =
        if c = '-' then (if c2 = '>' then sepTok r else sepTok (c2 :: r))
        else (isWs c || c = ',' || c = '|') && sepTok (c2 :: r) := rfl
    rw [hredg, if_neg hne]
    exact Bool.and_eq_true_iff.mpr
      ⟨(Bool.and_eq_true_iff.mp h).1, ih (Bool.and_eq_true_iff.mp h).2⟩

theorem all_ws_of_takeWhile_reverse (l : List Char) :
    ((l.takeWhile isWs).reverse).all isWs = true := by
  rw [List.all_reverse]
  rw [List.all_eq_true]
  intro x hx
  exact List.mem_takeWhile_imp hx

theorem sepTok_trimChars (l : List Char) (h : sepTok l = true) :
    sepTok (trimChars l) = true := by
  unfold trimChars
  have h1 : sepTok (l.dropWhile isWs) = true := sepTok_dropWhileWs l h
  set l1 := l.dropWhile isWs with hl1
  have hdecomp : l1 = (l1.reverse.dropWhile isWs).reverse ++ (l1.reverse.takeWhile isWs).reverse :=
    calc l1 = l1.reverse.reverse := (List.reverse_reverse l1).symm
      _ = (l1.reverse.takeWhile isWs ++ l1.reverse.dropWhile isWs).reverse := by
          rw [List.takeWhile_append_dropWhile]
      _ = (l1.reverse.dropWhile isWs).reverse ++ (l1.reverse.takeWhile isWs).reverse :=
          List.reverse_append _ _
  apply sepTok_append_ws ((l1.reverse.takeWhile isWs).reverse)
    (all_ws_of_takeWhile_reverse l1.reverse)
  rw [← hdecomp]
  exact h1

/-- Outcome of `handleGenerate` in `ChordProgressionGenerator.tsx`, as seen
by the caller: the progression was cleared, an error message was surfaced,
or generation proceeds on the validated string. -/
inductive GenOutcome where
  | cleared
  | errored (msg : String)
  | generated (validated : String)
deriving DecidableEq, Repr

/-- The control flow of `handleGenerate` around validation: an empty trimmed
progression or an empty validated string clears the preview, a validation
throw surfaces the error, and otherwise generation runs on the validated
string. -/
def handleGenerate (progression : String) : GenOutcome :=
  let trimmed := trimChars progression.data
  if trimmed.isEmpty then .cleared
  else
    match validateProgressionChars trimmed with
    | .error m => .errored m
    | .ok [] => .cleared
    | .ok v => .generated (String.mk v)

/-- C10: a progression consisting only of separators and whitespace
validates to the empty string instead of throwing, and `handleGenerate`
treats it as a cleared progression rather than a parse error. -/
theorem separators_only_cleared (raw : String) (h : sepTok raw.data = true) :
    validateProgression raw = .ok "" ∧ handleGenerate raw = GenOutcome.cleared := by
  constructor
  · unfold validateProgression validateProgressionChars
    rw [sepTok_normalize raw.data h]
    rfl
  · unfold handleGenerate
    by_cases ht : (trimChars raw.data).isEmpty
    · simp [ht]
    · have hsep2 : sepTok (trimChars raw.data) = true := sepTok_trimChars raw.data h
      have hok : validateProgressionChars (trimChars raw.data) = .ok [] := by
        unfold validateProgressionChars
        rw [sepTok_normalize _ hsep2]
        rfl
      simp [ht, hok]

/-- Witness for `separators_only_cleared` on a concrete separator soup. -/
theorem separators_only_cleared_witness :
    sepTok " ,| -> - ".data = true ∧
      validateProgression " ,| -> - " = .ok "" ∧
      handleGenerate " ,| -> - " = GenOutcome.cleared :=
  ⟨by decide,
    (separators_only_cleared " ,| -> - " (by decide)).1,
    (separators_only_cleared " ,| -> - " (by decide)).2⟩

/-- Modelled from the spec: candidate octave placements of a pitch class in
the MIDI range 0..127 (the smooth strategy of `MidiGenerator.ts` is not
among the available sources). -/
def pcCandidates (pc : Nat) : List Int :=
  ((List.range 11).map fun o => (pc : Int) + 12 * o).filter fun n => n ≤ 127

/-- Modelled from the spec: the absolute semitone distance from a candidate
pitch to the nearest note of the previous voicing. -/
def distToNearest (prev : List Int) (n : Int) : Nat :=
  (prev.map fun p => (n - p).natAbs).foldl min 100000

/-- Modelled from the spec: the octave placement of one pitch class that
minimizes the distance to the nearest note of the previous voicing, ties
broken by preferring the smaller MIDI value (the candidates ascend and only
a strictly smaller distance replaces the current best). -/
def bestPlacement (prev : List Int) (pc : Nat) : Int :=
  match pcCandidates pc with
  | [] => (pc : Int)
  | c :: cs =>
    cs.foldl (fun best m =>
      if distToNearest prev m < distToNearest prev best then m else best) c

/-- Modelled from the spec: the smooth voice-leading strategy places each
pitch class of the new chord independently at its best octave relative to
the previous voicing; the resulting voicing is listed in ascending order. -/
def smoothVoice (prev : List Int) (pcs : List Nat) : List Int :=
  List.insertionSort (· ≤ ·) (pcs.map (bestPlacement prev))

set_option maxRecDepth 4000 in
/-- C3 counterexample: under the per-voice nearest-note rule described by the
claim itself, the A-minor pitch classes after the voicing `[60, 64, 67]` are
not placed at `[57, 60, 64]`: pitch class 9 sits nearer to the previous chord
at 69 (distance 2 to 67) than at 57 (distance 3 to 60). -/
theorem smooth_voicing_not_57_60_64 :
    smoothVoice [60, 64, 67] [9, 0, 4] ≠ [57, 60, 64] := by
  decide

set_option maxRecDepth 4000 in
/-- C3 amended: for previous voicing `[60, 64, 67]` and A minor (pitch
classes 9, 0, 4), the smooth strategy keeps the two shared tones 60 and 64
in place and places pitch class 9 at 69, the candidate nearest to a previous
note, so the chosen voicing equals `[60, 64, 69]`. -/
theorem smooth_voicing_example :
    smoothVoice [60, 64, 67] [9, 0, 4] = [60, 64, 69] ∧
      (60 : Int) ∈ smoothVoice [60, 64, 67] [9, 0, 4] ∧
      (64 : Int) ∈ smoothVoice [60, 64, 67] [9, 0, 4] ∧
      distToNearest [60, 64, 67] 69 < distToNearest [60, 64, 67] 57 := by
  refine ⟨by decide, by decide, by decide, by decide⟩

/-- Inversion / voicing strategies of the generator (the `InversionType`
labels in `ChordProgressionForm.tsx`). -/
inductive InversionType where
  | none
  | first
  | smooth
  | pianist
  | «open»
  | spread
  | cocktail
deriving DecidableEq, Repr

/-- The options bag `MidiGenerationOptions` passed to `generate`
(`handleGenerate` in `ChordProgressionGenerator.tsx` builds it from the
form values). -/
structure MidiGenerationOptions where
  progressionString : String
  outputFileName : Option String
  outputType : OutputType
  inversionType : InversionType
  baseOctave : Int
  chordDurationStr : String
  tempo : Nat
  velocity : Nat
deriving DecidableEq, Repr

/-- One playable note (`NoteData` of `MidiGenerator.ts`). -/
structure NoteData where
  midiNote : Int
  startTimeTicks : Nat
  durationTicks : Nat
  velocity : Nat
deriving DecidableEq, Repr

/-- The result bag of `generate` (`MidiGenerationResult`); the MIDI byte
stream is represented by its delta-encoded track events. -/
structure MidiGenerationResult where
  chordDetails : List ChordGenerationData
  notesForPianoRoll : List NoteData
  midiEvents : List (Int × AbsEvent)
  finalFileName : String
deriving DecidableEq, Repr

/-- Clamp a computed pitch into the MIDI range 0..127 (§4.3 of the spec:
range errors are recovered by clamping). -/
def clampMidi (n : Int) : Int := max 0 (min 127 n)

/-- Clamp a velocity into 1..127 (§4.4 of the spec: out-of-range velocity is
clamped, not rejected). -/
def clampVelocity (v : Nat) : Nat := max 1 (min 127 v)

/-- Value of a digit string. -/
def digitsVal (l : List Char) : Nat :=
  l.foldl (fun a c => a * 10 + (c.toNat - 48)) 0

/-- Modelled from the spec: resolve a decimal bar count to ticks with exact
integer arithmetic, `ticks = bars * TPQN * 4` (§4.1). -/
def parseDecimalTicks (ds : List Char) : Nat :=
  let intPart := ds.takeWhile Char.isDigit
  let fracPart :=
    match ds.dropWhile Char.isDigit with
    | '.' :: f => f.takeWhile Char.isDigit
    | _ => []
  digitsVal (intPart ++ fracPart) * (TPQN * 4) / 10 ^ fracPart.length

/-- Modelled from the spec: named duration codes as fixed tick counts
(fractions of a 4/4 bar of `TPQN * 4` ticks). -/
def namedCodeTicks : List (String × Nat) :=
  [("w", 512), ("h", 256), ("q", 128), ("e", 64), ("s", 32)]

/-- Modelled from the spec: resolve a duration suffix (or the default
duration) to ticks: `T`-codes verbatim, named codes from the table, decimal
bar counts otherwise (§4.1). -/
def resolveDurationTicks (d : Option (List Char)) (defaultD : List Char) : Nat :=
  let ds := d.getD defaultD
  if isTickCode ds then digitsVal (ds.drop 1)
  else
    match namedCodeTicks.lookup (String.mk (ds.map Char.toLower)) with
    | some t => t
    | none => parseDecimalTicks ds

/-- One parsed progression entry (`ProgressionEntry` of §3 of the spec). -/
structure ProgressionEntry where
  symbol : String
  isRest : Bool
  rootPc : Nat
  quality : String
  bassPc : Nat
  durationTicks : Nat
deriving DecidableEq, Repr

/-- Modelled from the spec: parse one validated token into a
`ProgressionEntry` (§4.1, §4.2): rests keep only their duration, chords
resolve root, quality and optional slash bass. -/
def parseEntryTok (defaultD : List Char) (tok : List Char) : ProgressionEntry :=
  let symbol := entrySymbol tok
  let ticks := resolveDurationTicks (entryDuration tok) defaultD
  if symbol.map Char.toUpper == ['R'] then
    ⟨String.mk symbol, true, 0, "", 0, ticks⟩
  else
    match parseRoot symbol with
    | Option.none => ⟨String.mk symbol, false, 0, "?", 0, ticks⟩
    | some pr =>
      let quality := pr.2.takeWhile (· ≠ '/')
      let slash := pr.2.dropWhile (· ≠ '/')
      let bassPc :=
        match slash with
        | _ :: b =>
          match parseRoot b with
          | some pb => pb.1
          | Option.none => pr.1
        | [] => pr.1
      ⟨String.mk symbol, false, pr.1, String.mk quality, bassPc, ticks⟩

/-- Modelled from the spec: root-position voicing — stack the pitch classes
upward from `baseOctave * 12 + root`, each successive pitch class at the
lowest octave above the previously placed note (§4.3). -/
def rootPositionVoice (baseOctave : Int) (root : Nat) (pcs : List Nat) : List Int :=
  (pcs.foldl
    (fun (acc : List Int × Int) pc =>
      let n := acc.2 + (((pc : Int) - acc.2) % 12)
      (acc.1 ++ [n], n + 1))
    ([], 12 * baseOctave + (root : Int))).1

/-- Modelled from the spec: the bass note is the bass pitch class placed one
octave below the base octave and lowered further until it lies below the
lowest voiced chord tone, then clamped into 0..127 (§4.3). -/
def bassFor (baseOctave : Int) (bassPc : Nat) (voicing : List Int) : Int :=
  let lowest := voicing.foldr min 128
  let cand := 12 * (baseOctave - 1) + (bassPc : Int)
  let below := if cand < lowest then cand else cand - 12 * ((cand - lowest) / 12 + 1)
  clampMidi below

/-- Modelled from the spec: per-strategy voicing.  `smooth` uses the
previous voicing when one exists; `first` lifts the root of the
root-position voicing by an octave; the remaining strategies are
deterministic re-octavings whose exact shapes are not in the available
sources and are folded to the root-position placement. -/
def voiceFor (inv : InversionType) (baseOctave : Int) (prev : Option (List Int))
    (root : Nat) (pcs : List Nat) : List Int :=
  match inv with
  | .smooth =>
    match prev with
    | some p => smoothVoice p pcs
    | Option.none => rootPositionVoice baseOctave root pcs
  | .first =>
    match rootPositionVoice baseOctave root pcs with
    | r :: rest => List.insertionSort (· ≤ ·) (rest ++ [r + 12])
    | [] => []
  | _ => rootPositionVoice baseOctave root pcs

/-- Modelled from the spec: resolve and voice the entries left to right,
threading only the previous voicing as state (§4.3: the immediately
preceding voicing is the entire memory of the engine); unknown qualities
yield `isValid = false` entries that keep their place in the timeline
(§4.2, §7). -/
def buildDetails (opts : MidiGenerationOptions) :
    Option (List Int) → Nat → List ProgressionEntry →
      List ChordGenerationData × Option (List Int)
  | mem, _, [] => ([], mem)
  | mem, tick, e :: rest =>
    if e.isRest then
      let d : ChordGenerationData :=
        ⟨e.symbol, true, tick, e.durationTicks, [], [], Option.none⟩
      let next := buildDetails opts mem (tick + e.durationTicks) rest
      (d :: next.1, next.2)
    else
      match CHORD_FORMULAS.lookup e.quality with
      | Option.none =>
        let d : ChordGenerationData :=
          ⟨e.symbol, false, tick, e.durationTicks, [], [], Option.none⟩
        let next := buildDetails opts mem (tick + e.durationTicks) rest
        (d :: next.1, next.2)
      | some ivs =>
        let pcs := ivs.map fun i => (e.rootPc + i) % 12
        let voicing :=
          (voiceFor opts.inversionType opts.baseOctave mem e.rootPc pcs).map clampMidi
        let bass := bassFor opts.baseOctave e.bassPc voicing
        let d : ChordGenerationData :=
          ⟨e.symbol, true, tick, e.durationTicks, pcs, voicing, some bass⟩
        let next := buildDetails opts (some voicing) (tick + e.durationTicks) rest
        (d :: next.1, next.2)

/-- The flattened note list of a detail list under the output-type filter
(the filter runs before delta encoding, §4.4). -/
def notesOf (outputType : OutputType) (velocity : Nat)
    (details : List ChordGenerationData) : List NoteData :=
  details.bind fun d =>
    (getNotesForOutputType d outputType).map fun n =>
      ⟨n, d.startTimeTicks, d.durationTicks, clampVelocity velocity⟩

/-- Note-On / Note-Off events of a note list, encoded with the same
gather-sort-delta pipeline as the exporter. -/
def encodeNotes (notes : List NoteData) : List (Int × AbsEvent) :=
  emitDeltas 0 (sortEvents (notes.bind fun n =>
    [⟨n.startTimeTicks, EvKind.on, n.midiNote.toNat, n.velocity⟩,
     ⟨n.startTimeTicks + n.durationTicks, EvKind.off, n.midiNote.toNat, 0⟩]))

/-- Modelled from the spec: `MidiGenerator.generate` (§4.5) — validate,
parse, resolve, voice and encode.  The carried voicing memory is the only
state of the generator object and it is reset at the start of each run
(§4.3), so the output never depends on the incoming state. -/
def MidiGenerator.generate (state : Option (List Int))
    (opts : MidiGenerationOptions) :
    Except String MidiGenerationResult × Option (List Int) :=
  let mem0 : Option (List Int) := Option.none
  match validateProgression opts.progressionString with
  | .error m => (.error m, mem0)
  | .ok v =>
    let entries := (splitWs v.data).map (parseEntryTok opts.chordDurationStr.data)
    let built := buildDetails opts mem0 0 entries
    let notes := notesOf opts.outputType opts.velocity built.1
    let result : MidiGenerationResult :=
      ⟨built.1, notes, encodeNotes notes,
        (opts.outputFileName.getD "progression") ++ ".mid"⟩
    (.ok result, built.2)

/-- C8: `generate` is deterministic and carries no hidden state between
calls: its result does not depend on the generator state left behind by
earlier calls (the voicing memory is reset at the start of each run), so two
calls with identical options produce identical results — in particular an
immediate second call reproduces the first call's output byte for byte. -/
theorem generate_deterministic (s1 s2 : Option (List Int))
    (opts : MidiGenerationOptions) :
    (MidiGenerator.generate s1 opts).1 = (MidiGenerator.generate s2 opts).1 ∧
      (MidiGenerator.generate s1 opts).1 =
        (MidiGenerator.generate (MidiGenerator.generate s1 opts).2 opts).1 := by
  constructor <;> rfl
